import Mathlib

/-!
Verification of the abkhazia staged language-model pipeline and the AIC
corpus preparator (shallow embedding of `abkhazia/core/language_model.py`
and `abkhazia/prepare/aic_preparator.py`).

Python strings are modelled as `List Char`; Python `str.replace` as a
left-to-right non-overlapping substitution; the regex matchers used by the
preparator are modelled by hand with their anchored greedy/lazy semantics;
the external Kaldi/IRSTLM/SRILM tools invoked by the pipeline are modelled
as oracle functions supplied in a `Tools` structure; the filesystem state
relevant to the pipeline (the `G.txt` / `G.arpa.gz` / `G.fst` artifacts,
the output directory and the formatting temp directory) is an explicit
record threaded through the pipeline functions.
-/

namespace Abkhazia

/-- Python strings are modelled as lists of characters. -/
abbrev Str := List Char

/-- The characters matched by the regex whitespace class (Python `\s` for
ASCII input): space, tab, newline, carriage return, vertical tab, form feed. -/
def isWsC (c : Char) : Bool :=
  c == ' ' || c == '\t' || c == '\n' || c == '\r' ||
    c == Char.ofNat 11 || c == Char.ofNat 12

/-- Decidable prefix test on character lists (used to locate occurrences of
a `str.replace` pattern). -/
def isPfx : Str → Str → Bool
  | [], _ => true
  | _ :: _, [] => false
  | c :: p, d :: s => c == d && isPfx p s

/-- Fuel-indexed engine for `replaceAll`; the fuel is always instantiated
with the length of the subject string, which suffices for nonempty
patterns.  Structural recursion keeps the function kernel-computable. -/
def replaceAllF (p r : Str) : Nat → Str → Str
  | _, [] => []
  | 0, s => s
  | fuel + 1, c :: cs =>
    if isPfx p (c :: cs) then
      r ++ replaceAllF p r fuel (List.drop p.length (c :: cs))
    else
      c :: replaceAllF p r fuel cs

/-- Model of Python `str.replace(p, r)` for a nonempty pattern `p`:
left-to-right scan, replacing non-overlapping occurrences. -/
def replaceAll (p r s : Str) : Str := replaceAllF p r s.length s

/-- Sequential application of a list of `str.replace` substitutions, in
order, exactly as the chain of `phn_trs.replace(...)` lines in
`make_lexicon_aux` does. -/
def applySubs (subs : List (Str × Str)) (s : Str) : Str :=
  subs.foldl (fun acc pr => replaceAll pr.1 pr.2 acc) s

/-- Join a list of tokens with single spaces (the shape of a phone string
in the CMU dictionary and in the written lexicon lines). -/
def joinSpace : List Str → Str
  | [] => []
  | [t] => t
  | t :: t2 :: ts => t ++ ' ' :: joinSpace (t2 :: ts)

/-- The CMU-to-AIC phone substitution table, exactly the sequence of
`phn_trs.replace(...)` calls of `make_lexicon_aux` in source order: the 23
two-letter CMU codes first, then the 16 one-letter codes. -/
def aicSubs : List (Str × Str) :=
  [ ( "AA".toList, "a".toList), ( "AE".toList, "xq".toList),
    ( "AH".toList, "xa".toList), ( "AO".toList, "c".toList),
    ( "AW".toList, "xw".toList), ( "AY".toList, "xy".toList),
    ( "DH".toList, "xd".toList), ( "EH".toList, "xe".toList),
    ( "ER".toList, "xr".toList), ( "EY".toList, "e".toList),
    ( "CH".toList, "xc".toList), ( "HH".toList, "h".toList),
    ( "IH".toList, "xi".toList), ( "IY".toList, "i".toList),
    ( "JH".toList, "xj".toList), ( "NG".toList, "xg".toList),
    ( "OW".toList, "o".toList), ( "OY".toList, "xo".toList),
    ( "SH".toList, "xs".toList), ( "TH".toList, "xt".toList),
    ( "UH".toList, "xu".toList), ( "UW".toList, "u".toList),
    ( "ZH".toList, "xz".toList),
    ( "D".toList, "d".toList), ( "B".toList, "b".toList),
    ( "F".toList, "f".toList), ( "G".toList, "g".toList),
    ( "K".toList, "k".toList), ( "L".toList, "l".toList),
    ( "M".toList, "m".toList), ( "N".toList, "n".toList),
    ( "P".toList, "p".toList), ( "R".toList, "r".toList),
    ( "S".toList, "s".toList), ( "T".toList, "t".toList),
    ( "V".toList, "v".toList), ( "W".toList, "w".toList),
    ( "Y".toList, "y".toList), ( "Z".toList, "z".toList) ]

/-- The CMU-to-AIC remapping applied to a phone string by
`make_lexicon_aux`: the sequential substitution chain. -/
def remapCmuToAic (phn : Str) : Str := applySubs aicSubs phn

/-- The intended per-code image of the substitution table: the AIC symbol
a single CMU code is mapped to. -/
def aicOf (t : Str) : Str :=
  (((aicSubs.find? (fun pr => pr.1 = t)).map (fun pr => pr.2)).getD t)

/-- The left-hand sides (CMU codes) of the substitution table. -/
def cmuCodes : List Str := aicSubs.map (fun pr => pr.1)

/-- ASCII lowercasing of a character, as Python `str.lower` acts on the
ASCII corpus data handled by the preparator. -/
def toLowerC (c : Char) : Char :=
  if 65 ≤ c.toNat ∧ c.toNat ≤ 90 then Char.ofNat (c.toNat + 32) else c

/-- ASCII uppercasing of a character, as Python `str.upper` acts on the
ASCII corpus data handled by the preparator. -/
def toUpperC (c : Char) : Char :=
  if 97 ≤ c.toNat ∧ c.toNat ≤ 122 then Char.ofNat (c.toNat - 32) else c

/-- An ASCII uppercase letter. -/
def isUpperC (c : Char) : Prop := 65 ≤ c.toNat ∧ c.toNat ≤ 90

instance (c : Char) : Decidable (isUpperC c) := by
  unfold isUpperC; infer_instance

/-- Lowercase a modelled string (Python `str.lower`). -/
def lowerStr (s : Str) : Str := s.map toLowerC

/-- Uppercase a modelled string (Python `str.upper`). -/
def upperStr (s : Str) : Str := s.map toUpperC

/-- Python `sound.split( ":")`: split at every colon, keeping empty parts;
the result is always nonempty. -/
def splitColon : Str → List Str
  | [] => [[]]
  | c :: cs =>
    if c = ':' then [] :: splitColon cs
    else
      match splitColon cs with
      | [] => [[c]]
      | t :: ts => (c :: t) :: ts

/-- Maximal run matched by a greedy regex `.` repetition starting at the
current position: everything up to the first newline. -/
def dotStar (s : Str) : Str := s.takeWhile (fun c => c ≠ '\n')

/-- Split a string at its first whitespace character (the lazy
`(.*?)\s` idiom); `none` when the string has no whitespace at all. -/
def firstSplitWs : Str → Option (Str × Str)
  | [] => none
  | c :: cs =>
    if isWsC c then some ([], cs)
    else (firstSplitWs cs).map (fun ab => (c :: ab.1, ab.2))

/-- Split a string at the last occurrence of `ch` (the greedy `(.*)ch`
idiom); `none` when `ch` does not occur. -/
def lastSplitAt (ch : Char) : Str → Option (Str × Str)
  | [] => none
  | c :: cs =>
    match lastSplitAt ch cs with
    | some ab => some (c :: ab.1, ab.2)
    | none => if c = ch then some ([], cs) else none

/-- Backtracking core of the anchored match of `(.*)\s\s(.*)` as used on
CMU dictionary lines: find the latest position at which two consecutive
whitespace characters follow a newline-free prefix. -/
def cmuSplit : Str → Option (Str × Str)
  | [] => none
  | [_] => none
  | c :: d :: rest =>
    (if c = '\n' then none
     else (cmuSplit (d :: rest)).map (fun ab => (c :: ab.1, ab.2))) <|>
    (if isWsC c ∧ isWsC d then some ([], rest) else none)

/-- Anchored match of `re.match(r"(.*)\s\s(.*)", line)` returning the two
groups, as used on each line of the CMU dictionary. -/
def cmuDictParse (line : Str) : Option (Str × Str) :=
  (cmuSplit line).map (fun ab => (ab.1, dotStar ab.2))

/-- Anchored match of `re.match(r'(.*?)\s(.*)', line)` returning the two
groups, as used on each line of the temporary lexicon. -/
def lexLineParse (line : Str) : Option (Str × Str) :=
  (firstSplitWs line).map (fun ab => (ab.1, dotStar ab.2))

/-- Anchored match of `re.match( "(.*)\t(.*)", line)` returning the two
groups, as used on each line of the temporary OOV file. -/
def oovLineParse (line : Str) : Option (Str × Str) :=
  lastSplitAt '\t' (dotStar line)

/-- Character class `[fm0-9]` of the transcription regex. -/
def isSpkC (c : Char) : Bool :=
  c == 'f' || c == 'm' || ('0' ≤ c && c ≤ '9')

/-- Anchored match of `re.match(r"([fm0-9]+)_([ps])_(.*?)\s(.*)", line)`
returning the four groups, as used on each transcription line. -/
def transParse (line : Str) : Option (Str × Char × Str × Str) :=
  let g1 := line.takeWhile isSpkC
  if g1 = [] then none
  else
    match line.drop g1.length with
    | '_' :: c :: '_' :: rest =>
      if c = 'p' ∨ c = 's' then
        (firstSplitWs rest).map (fun ab => (g1, c, ab.1, dotStar ab.2))
      else none
    | _ => none

/-- Python `str.split()` with no argument: split on whitespace runs,
discarding empty fields.  `acc` holds the characters of the current field
in reverse. -/
def pySplitAux (acc : Str) : Str → List Str
  | [] => if acc = [] then [] else [acc.reverse]
  | c :: cs =>
    if isWsC c then
      if acc = [] then pySplitAux [] cs else acc.reverse :: pySplitAux [] cs
    else pySplitAux (c :: acc) cs

def pySplit (s : Str) : List Str := pySplitAux [] s

/-- Decimal digit character for `d < 10`. -/
def digitChar (d : Nat) : Char := Char.ofNat (48 + d)

/-- Fuel-indexed decimal rendering of a natural number (the model of
Python `str(freq)`); the fuel `n + 1` always suffices. -/
def natDigitsCore : Nat → Nat → Str
  | 0, _ => []
  | fuel + 1, n =>
    if n < 10 then [digitChar n]
    else natDigitsCore fuel (n / 10) ++ [digitChar (n % 10)]

def natDigits (n : Nat) : Str := natDigitsCore (n + 1) n

/-- An ASCII decimal digit. -/
def isDigitC (c : Char) : Bool := '0' ≤ c && c ≤ '9'

/-- Value of an unsigned decimal digit string; `none` when empty or
containing a non-digit. -/
def parseDigits (s : Str) : Option Nat :=
  if s ≠ [] ∧ s.all isDigitC then
    some (s.foldl (fun a c => a * 10 + (c.toNat - 48)) 0)
  else none

/-- Model of Python `int(string)`: strip surrounding whitespace, accept an
optional sign followed by decimal digits, raise (here: `none`) otherwise. -/
def pyInt (s : Str) : Option Int :=
  let t := ((s.dropWhile isWsC).reverse.dropWhile isWsC).reverse
  match t with
  | [] => none
  | c :: rest =>
    if c = '-' then (parseDigits rest).map (fun n => -(n : Int))
    else if c = '+' then (parseDigits rest).map (fun n => (n : Int))
    else (parseDigits t).map (fun n => (n : Int))

/-- Removal of the CMU stress markers, the chain
`phn.replace( "0", ""); phn.replace( "1", ""); phn.replace( "2", "")` in
`temp_cmu_lexicon`. -/
def stripStressMarkers (phn : Str) : Str :=
  applySubs [ ( "0".toList, []), ( "1".toList, []), ( "2".toList, []) ] phn

/-- Assignment `d[k] = v` on a Python dict modelled as an association
list: overwrite in place when the key exists, append otherwise. -/
def dictSet {α : Type} : List (Str × α) → Str → α → List (Str × α)
  | [], k, v => [(k, v)]
  | (k', v') :: m, k, v =>
    if k' = k then (k, v) :: m else (k', v') :: dictSet m k v

/-- Frequency bump `d[w] = 1 if w not in d else d[w] + 1` on a Python dict
modelled as an association list. -/
def dictBump : List (Str × Nat) → Str → List (Str × Nat)
  | [], w => [(w, 1)]
  | (k, n) :: m, w =>
    if k = w then (k, n + 1) :: m else (k, n) :: dictBump m w

/-- First loop of `temp_cmu_lexicon`: read the CMU dictionary, skipping
lines that do not match `(.*)\s\s(.*)`, strip stress markers from the
matched phone string and store the entry in the `cmu_dict` dictionary. -/
def tempCmuLexiconDict (lines : List Str) : List (Str × Str) :=
  (lines.filterMap cmuDictParse).foldl
    (fun m e => dictSet m e.1 (stripStressMarkers e.2)) []

/-- Second loop of `temp_cmu_lexicon`: read the transcription file,
skipping lines that do not match `([fm0-9]+)_([ps])_(.*?)\s(.*)`, and count
word frequencies over the uppercased, whitespace-split fourth group. -/
def tempCmuLexiconFreqs (lines : List Str) : List (Str × Nat) :=
  (lines.filterMap transParse).foldl
    (fun m g => (pySplit (upperStr g.2.2.2)).foldl dictBump m) []

/-- The OOV line written by `temp_cmu_lexicon`:
`outfile2.write(word + '\t' + str(freq) + '\n')`, as it is read back. -/
def encodeOovLine (word : Str) (freq : Nat) : Str :=
  word ++ '\t' :: (natDigits freq ++ [ '\n' ])

/-- First loop of `make_lexicon_aux`: each line of the temporary lexicon
that matches `(.*?)\s(.*)` contributes the lowercased word paired with the
CMU-to-AIC remapping of the phone string; other lines are skipped. -/
def lexCmuEntries (lines : List Str) : List (Str × Str) :=
  lines.filterMap (fun line =>
    (lexLineParse line).map (fun m => (lowerStr m.1, remapCmuToAic m.2)))

/-- Body of the OOV loop of `make_lexicon_aux` for one matched line:
lowercase the sound, convert the frequency with `int` (failure aborts the
stage), keep the entry only when the frequency is strictly greater than 1,
with the pronunciation given by splitting the sound on `:`. -/
def oovStep (m : Str × Str) : Option (Option (Str × List Str)) :=
  (pyInt m.2).map (fun freq =>
    if 1 < freq then
      some (lowerStr m.1, splitColon (lowerStr m.1))
    else none)

/-- Second loop of `make_lexicon_aux`: lines of the temporary OOV file not
matching `(.*)\t(.*)` are skipped; matched lines go through `oovStep`; a
failing `int` conversion raises, modelled as `none` for the whole stage. -/
def oovEntries (lines : List Str) : Option (List (Str × List Str)) :=
  ((lines.filterMap oovLineParse).mapM oovStep).map (List.filterMap id)

/-- A written lexicon entry: the word followed by the rest of its line. -/
def renderLexLine (e : Str × Str) : Str := e.1 ++ ' ' :: e.2

/-- The whole of `make_lexicon_aux`: the CMU section entries followed by
the retained OOV entries (each OOV pronunciation list is rendered with
single spaces, matching the per-phone writes of the source). -/
def makeLexiconAux (tempLexLines oovLines : List Str) :
    Option (List (Str × Str)) :=
  (oovEntries oovLines).map (fun es =>
    lexCmuEntries tempLexLines ++
      es.map (fun e => (e.1, joinSpace e.2)))

/-- The language-model parameters (`level`, `order`,
`silence_probability`, `position_dependent_phones`) set on a
`LanguageModel` instance.  `order` is an `Int` (a Python int) and the
probability a rational, standing in for the Python float. -/
structure LMParams where
  level : String
  order : Int
  silence_probability : ℚ
  position_dependent_phones : Bool
deriving DecidableEq

/-- The admissible values of `level` (`level_choices` in `_check_level`). -/
def levelChoices : List String := [ "word", "phone" ]

/-- The configuration errors raised by the parameter checks, carrying the
offending value like the formatted `RuntimeError` messages do. -/
inductive ConfigError
  | badLevel (level : String)
  | badOrder (ord : Int)
  | badSilenceProbability (prob : ℚ)
deriving DecidableEq

/-- `_check_level`: raise unless `level` is `word` or `phone`. -/
def check_level (p : LMParams) : Except ConfigError Unit :=
  if p.level ∈ levelChoices then Except.ok ()
  else Except.error (ConfigError.badLevel p.level)

/-- `_check_order`: raise unless the order is an integer greater than 0. -/
def check_order (p : LMParams) : Except ConfigError Unit :=
  if p.order < 1 then Except.error (ConfigError.badOrder p.order)
  else Except.ok ()

/-- `_check_silence_probability`: raise unless the probability lies in
the closed interval from 0 to 1. -/
def check_silence_probability (p : LMParams) : Except ConfigError Unit :=
  if p.silence_probability > 1 ∨ p.silence_probability < 0 then
    Except.error (ConfigError.badSilenceProbability p.silence_probability)
  else Except.ok ()

/-- The warning text logged by `_check_position_dependent`. -/
def wpdWarning : String :=
  "word position dependent option on word-level model, this have no effect"

/-- `_check_position_dependent`: on a word-level model with
position-dependent phones requested, log a warning; never raise. -/
def check_position_dependent (p : LMParams) : List String :=
  if p.level = "word" ∧ p.position_dependent_phones then [ wpdWarning ]
  else []

/-- `check_parameters`: run the four checks in source order; the result
carries the warnings logged by the position-dependent check. -/
def check_parameters (p : LMParams) : Except ConfigError (List String) := do
  check_level p
  check_order p
  check_silence_probability p
  pure (check_position_dependent p)

/-- The external tools invoked by the pipeline, as deterministic oracles:
`prepareLang` is the prepare-lang script (producing the lang files of
`output_dir` from the fixed setup artifacts), `computeLm` the IRSTLM
n-gram chain of `_compute_lm` (producing the ARPA model from the fixed
`lm_text` and the order), `formatLmSri` the `format_lm_sri.sh` call of
`_format_lm` (reading the lang files and the ARPA model, producing the
populated temp dir: copied lang files plus `G.fst`), and `compileFst` the
`fstcompile`/`fstarcsort` chain of `_compile_fst`.  An `Except.error`
models a failing external process. -/
structure Tools where
  prepareLang : LMParams → Except String String
  computeLm : Int → Except String String
  formatLmSri : String → String → Except String (String × String)
  compileFst : String → Except String String

/-- The filesystem state the pipeline reads and writes.  `gTxt`, `gArpa`
and `localFst` are the contents (when the file exists) of `G.txt`,
`G.arpa.gz` and `G.fst` in the recipe's `local` working directory, which
is modelled (from the spec's Recipe Directory description, `_local_path`
not being part of the sources) as a working region distinct from
`output_dir`.  `outLang` is the lang-file content of `output_dir`,
`outFst` its `G.fst`, and `fmtTmp` the temporary directory of
`_format_lm` (`none`: absent; `some none`: created empty; `some (some c)`:
populated with formatted content `c`). -/
structure PState where
  gTxt : Option String
  gArpa : Option String
  localFst : Option String
  outLang : String
  outFst : Option String
  fmtTmp : Option (Option (String × String))
deriving DecidableEq

/-- An invocation of an external stage, for counting calls. -/
inductive Call
  | prepareLang
  | computeLm
  | formatLm
  | compileFst
deriving DecidableEq

/-- Errors escaping `run`: a configuration error from the parameter
checks or a propagated external-tool failure. -/
inductive RunError
  | config (e : ConfigError)
  | tool (msg : String)
deriving DecidableEq

/-- `_format_lm`: create a temporary directory, run `format_lm_sri.sh`
into it, and only after the tool succeeds remove `output_dir` and move the
temporary directory in its place; the `finally` clause removes the
temporary directory (safely, a no-op once it has been moved). -/
def format_lm (t : Tools) (G_arpa : String) (s : PState) :
    Except String Unit × PState :=
  let s1 : PState := { s with fmtTmp := some none }
  match t.formatLmSri s1.outLang G_arpa with
  | Except.error e =>
    (Except.error e, { s1 with fmtTmp := none })
  | Except.ok res =>
    let s2 : PState := { s1 with fmtTmp := some (some res) }
    let s3 : PState :=
      { s2 with outLang := res.1, outFst := some res.2, fmtTmp := none }
    (Except.ok (), s3)

/-- `run`: check the parameters, run prepare-lang, then branch on artifact
presence: an existing `G.txt` is compiled to `G.fst`; otherwise a missing
`G.arpa.gz` is computed with the n-gram chain, and in both remaining cases
the ARPA model is formatted into an FST.  The third component records the
external stages invoked, in order. -/
def run (t : Tools) (p : LMParams) (s : PState) :
    Except RunError Unit × PState × List Call :=
  match check_parameters p with
  | Except.error e => (Except.error (RunError.config e), s, [])
  | Except.ok _warnings =>
    match t.prepareLang p with
    | Except.error e => (Except.error (RunError.tool e), s, [Call.prepareLang])
    | Except.ok lang =>
      let s0 : PState := { s with outLang := lang }
      match s0.gTxt with
      | some txt =>
        match t.compileFst txt with
        | Except.error e =>
          (Except.error (RunError.tool e), s0, [Call.prepareLang, Call.compileFst])
        | Except.ok fst =>
          (Except.ok (), { s0 with localFst := some fst },
            [Call.prepareLang, Call.compileFst])
      | none =>
        match s0.gArpa with
        | some arpa =>
          match format_lm t arpa s0 with
          | (Except.error e, s1) =>
            (Except.error (RunError.tool e), s1, [Call.prepareLang, Call.formatLm])
          | (Except.ok _, s1) =>
            (Except.ok (), s1, [Call.prepareLang, Call.formatLm])
        | none =>
          match t.computeLm p.order with
          | Except.error e =>
            (Except.error (RunError.tool e), s0,
              [Call.prepareLang, Call.computeLm])
          | Except.ok arpa =>
            let s1 : PState := { s0 with gArpa := some arpa }
            match format_lm t arpa s1 with
            | (Except.error e, s2) =>
              (Except.error (RunError.tool e), s2,
                [Call.prepareLang, Call.computeLm, Call.formatLm])
            | (Except.ok _, s2) =>
              (Except.ok (), s2,
                [Call.prepareLang, Call.computeLm, Call.formatLm])

/-- The prepare-lang command assembled by `_prepare_lang`, with the shell
string broken into its arguments (`os.path.join` modelled as
slash-concatenation). -/
structure PrepareLangCmd where
  script : String
  posDepFlag : String
  silProb : ℚ
  srcDir : String
  unkSymbol : String
  tmpDir : String
  langDir : String
deriving DecidableEq

/-- Script selection in `_prepare_lang`: the word-position-dependent
variant from the share directory exactly when the model is at phone level
with position-dependent phones, the standard recipe script otherwise. -/
def prepareLangScript (recipeDir shareDir : String) (p : LMParams) : String :=
  if p.level = "phone" ∧ p.position_dependent_phones then
    shareDir ++ "/prepare_lang_wpdpl.sh"
  else recipeDir ++ "/utils/prepare_lang.sh"

/-- The `'true' if self.position_dependent_phones else 'false'` flag of
the prepare-lang command. -/
def posDepFlagStr : Bool → String
  | true => "true"
  | false => "false"

/-- The full command of `_prepare_lang`. -/
def prepareLangCmd (recipeDir shareDir localPath outputDir : String)
    (p : LMParams) : PrepareLangCmd :=
  { script := prepareLangScript recipeDir shareDir p
  , posDepFlag := posDepFlagStr p.position_dependent_phones
  , silProb := p.silence_probability
  , srcDir := localPath
  , unkSymbol := "<unk>"
  , tmpDir := outputDir ++ "/local"
  , langDir := outputDir }

/-- Error message used by the failing sample tools. -/
def sBoom : String := "external tool failure"

/-- Sample lang-file content. -/
def sLang : String := "lang-files"

/-- Sample ARPA content. -/
def sArpa : String := "arpa-model"

/-- Sample FST content suffix. -/
def sFst : String := "-fst"

/-- Sample `G.txt` content. -/
def sTxt : String := "g-txt"

/-- Sample recipe directory path. -/
def sRecipeDir : String := "rdir"

/-- Sample share directory path. -/
def sShareDir : String := "sdir"

/-- Sample local directory path. -/
def sLocalDir : String := "ldir"

/-- Sample output directory path. -/
def sOutDir : String := "odir"

/-- Deterministic sample tools on which every external call succeeds. -/
def okTools : Tools :=
  { prepareLang := fun _ => Except.ok sLang
  , computeLm := fun _ => Except.ok sArpa
  , formatLmSri := fun lang arpa => Except.ok (lang, arpa ++ sFst)
  , compileFst := fun txt => Except.ok (txt ++ sFst) }

/-- Sample tools whose FST-formatting call fails. -/
def badFmtTools : Tools :=
  { okTools with formatLmSri := fun _ _ => Except.error sBoom }

/-- A fresh pipeline state with no artifacts present. -/
def emptyState : PState :=
  { gTxt := none, gArpa := none, localFst := none
  , outLang := "", outFst := none, fmtTmp := none }

/-- Valid sample language-model parameters. -/
def okParams : LMParams :=
  { level := "word", order := 3
  , silence_probability := 1/2, position_dependent_phones := false }

/-- Parameters with the invalid order 0. -/
def order0Params : LMParams := { okParams with order := 0 }

/-- Parameters with the out-of-range silence probability 3/2. -/
def sp15Params : LMParams := { okParams with silence_probability := 3/2 }

/-- Parameters with an unknown level. -/
def badLevelParams : LMParams := { okParams with level := "sentence" }

/-- Word-level parameters with position-dependent phones requested. -/
def wpdParams : LMParams := { okParams with position_dependent_phones := true }

/-- Phone-level parameters with position-dependent phones requested. -/
def phoneWpdParams : LMParams :=
  { okParams with level := "phone", position_dependent_phones := true }

/-- The state left by a first successful `run` of the sample tools from
the empty state. -/
def afterFirstRun : PState :=
  { gTxt := none, gArpa := some sArpa, localFst := none
  , outLang := sLang, outFst := some (sArpa ++ sFst), fmtTmp := none }

theorem isPfx_le_length {p s : Str} (h : isPfx p s = true) :
    p.length ≤ s.length := by
  induction p generalizing s with
  | nil => simp
  | cons c q ih =>
    cases s with
    | nil => simp [isPfx] at h
    | cons d t =>
      simp only [isPfx, Bool.and_eq_true, beq_iff_eq] at h
      simpa [Nat.succ_le_succ_iff] using ih h.2

theorem isPfx_head_ne {c d : Char} {q b : Str} (h : c ≠ d) :
    isPfx (c :: q) (d :: b) = false := by
  simp [isPfx, h]

/-- A pattern that contains no space character matches at a position inside
`a ++ ' ' :: b` exactly when it matches inside `a` alone: no occurrence can
span the separating space. -/
theorem isPfx_append_space :
    ∀ (p : Str), p ≠ [] → ' ' ∉ p →
      ∀ a b : Str, isPfx p (a ++ ' ' :: b) = isPfx p a := by
  intro p
  induction p with
  | nil => intro hp _ _ _; exact absurd rfl hp
  | cons c q ih =>
    intro _ hsp a b
    cases a with
    | nil =>
      have hc : c ≠ ' ' := fun h => hsp (h ▸ List.mem_cons_self c q)
      simp [isPfx, hc]
    | cons x xs =>
      rcases eq_or_ne q [] with hq | hq
      · subst hq; simp [isPfx]
      · have hsq : ' ' ∉ q := fun hmem => hsp (List.mem_cons_of_mem c hmem)
        simp only [List.cons_append, isPfx, List.append_eq]
        rw [ih hq hsq xs b]

theorem replaceAllF_congr (p r : Str) (hp : p ≠ []) :
    ∀ f1 f2 s, s.length ≤ f1 → s.length ≤ f2 →
      replaceAllF p r f1 s = replaceAllF p r f2 s := by
  intro f1
  induction f1 with
  | zero =>
    intro f2 s h1 _
    have hs : s = [] := List.length_eq_zero.mp (Nat.le_zero.mp h1)
    subst hs; cases f2 <;> rfl
  | succ f ihf =>
    intro f2 s h1 h2
    cases s with
    | nil => cases f2 <;> rfl
    | cons c cs =>
      cases f2 with
      | zero => simp at h2
      | succ g =>
        have hpl : 1 ≤ p.length := by
          cases p with
          | nil => exact absurd rfl hp
          | cons a q => simp
        simp only [List.length_cons, Nat.succ_le_succ_iff] at h1 h2
        by_cases hm : isPfx p (c :: cs) = true
        · have hle : p.length ≤ (c :: cs).length := isPfx_le_length hm
          simp only [List.length_cons] at hle
          simp only [replaceAllF, hm, if_true]
          congr 1
          apply ihf
          · rw [List.length_drop]; simp only [List.length_cons]; omega
          · rw [List.length_drop]; simp only [List.length_cons]; omega
        · have hm' : isPfx p (c :: cs) = false := by
            simpa using hm
          simp only [replaceAllF, hm', if_false, Bool.false_eq_true]
          congr 1
          exact ihf g cs h1 h2

theorem replaceAll_nil (p r : Str) : replaceAll p r [] = [] := rfl

theorem replaceAll_cons_neg {p : Str} (r : Str) {c : Char} {cs : Str}
    (h : isPfx p (c :: cs) = false) :
    replaceAll p r (c :: cs) = c :: replaceAll p r cs := by
  simp only [replaceAll, List.length_cons, replaceAllF, h, if_false,
    Bool.false_eq_true]

theorem replaceAll_cons_pos {p : Str} (r : Str) {s : Str} (hp : p ≠ [])
    (hnil : s ≠ []) (h : isPfx p s = true) :
    replaceAll p r s = r ++ replaceAll p r (List.drop p.length s) := by
  cases s with
  | nil => exact absurd rfl hnil
  | cons c cs =>
    have hle : p.length ≤ cs.length + 1 := by
      have := isPfx_le_length h
      simpa using this
    have hpl : 1 ≤ p.length := by
      cases p with
      | nil => exact absurd rfl hp
      | cons a q => simp
    simp only [replaceAll, List.length_cons, replaceAllF, h, if_true]
    congr 1
    apply replaceAllF_congr p r hp
    · rw [List.length_drop]; simp only [List.length_cons]; omega
    · exact le_rfl

theorem replaceAll_space_nil {p : Str} (r : Str) (hp : p ≠ [])
    (hsp : ' ' ∉ p) (b : Str) :
    replaceAll p r (' ' :: b) = ' ' :: replaceAll p r b := by
  have hpfx : isPfx p (' ' :: b) = false := by
    cases p with
    | nil => exact absurd rfl hp
    | cons c q =>
      have hc : c ≠ ' ' := fun h => hsp (h ▸ List.mem_cons_self c q)
      exact isPfx_head_ne hc
  exact replaceAll_cons_neg r hpfx

/-- A single `str.replace` pass with a space-free nonempty pattern treats
the two sides of a separating space independently. -/
theorem replaceAll_append_space {p : Str} (r : Str) (hp : p ≠ [])
    (hsp : ' ' ∉ p) :
    ∀ (n : Nat) (a b : Str), a.length ≤ n →
      replaceAll p r (a ++ ' ' :: b) =
        replaceAll p r a ++ ' ' :: replaceAll p r b := by
  intro n
  induction n with
  | zero =>
    intro a b ha
    have hae : a = [] := List.length_eq_zero.mp (Nat.le_zero.mp ha)
    subst hae
    simpa using replaceAll_space_nil r hp hsp b
  | succ n ihn =>
    intro a b ha
    cases a with
    | nil => simpa using replaceAll_space_nil r hp hsp b
    | cons c cs =>
      have hpl : 1 ≤ p.length := by
        cases p with
        | nil => exact absurd rfl hp
        | cons x q => simp
      simp only [List.length_cons, Nat.succ_le_succ_iff] at ha
      by_cases hm : isPfx p (c :: cs) = true
      · have hfull : isPfx p ((c :: cs) ++ ' ' :: b) = true := by
          rw [isPfx_append_space p hp hsp]; exact hm
        have hle : p.length ≤ cs.length + 1 := by
          have := isPfx_le_length hm; simpa using this
        rw [replaceAll_cons_pos r hp (by simp) hfull,
          replaceAll_cons_pos r hp (by simp) hm]
        have hd : List.drop p.length ((c :: cs) ++ ' ' :: b) =
            List.drop p.length (c :: cs) ++ ' ' :: b := by
          rw [List.drop_append_eq_append_drop,
            Nat.sub_eq_zero_of_le (by simpa using hle)]
          simp
        rw [hd, ihn (List.drop p.length (c :: cs)) b
          (by rw [List.length_drop]; simp only [List.length_cons]; omega)]
        simp
      · have hm' : isPfx p (c :: cs) = false := by simpa using hm
        have hfull : isPfx p ((c :: cs) ++ ' ' :: b) = false := by
          rw [isPfx_append_space p hp hsp]; exact hm'
        rw [show (c :: cs) ++ ' ' :: b = c :: (cs ++ ' ' :: b) from rfl] at hfull ⊢
        rw [replaceAll_cons_neg r hfull, replaceAll_cons_neg r hm',
          ihn cs b ha]
        simp

theorem applySubs_nil_subs (s : Str) : applySubs [] s = s := rfl

theorem applySubs_cons (pr : Str × Str) (subs : List (Str × Str)) (s : Str) :
    applySubs (pr :: subs) s = applySubs subs (replaceAll pr.1 pr.2 s) := rfl

theorem applySubs_nil (subs : List (Str × Str)) : applySubs subs [] = [] := by
  induction subs with
  | nil => rfl
  | cons pr subs ih =>
    rw [applySubs_cons, replaceAll_nil]; exact ih

theorem applySubs_append_space (subs : List (Str × Str))
    (h : ∀ pr ∈ subs, pr.1 ≠ [] ∧ ' ' ∉ pr.1) :
    ∀ a b : Str, applySubs subs (a ++ ' ' :: b) =
      applySubs subs a ++ ' ' :: applySubs subs b := by
  induction subs with
  | nil => intro a b; rfl
  | cons pr subs ih =>
    intro a b
    have hpr := h pr (List.mem_cons_self pr subs)
    have hrest : ∀ q ∈ subs, q.1 ≠ [] ∧ ' ' ∉ q.1 :=
      fun q hq => h q (List.mem_cons_of_mem pr hq)
    rw [applySubs_cons,
      replaceAll_append_space pr.2 hpr.1 hpr.2 a.length a b le_rfl,
      ih hrest, applySubs_cons, applySubs_cons]

theorem applySubs_joinSpace (subs : List (Str × Str))
    (h : ∀ pr ∈ subs, pr.1 ≠ [] ∧ ' ' ∉ pr.1) :
    ∀ tokens : List Str,
      applySubs subs (joinSpace tokens) =
        joinSpace (tokens.map (applySubs subs)) := by
  intro tokens
  induction tokens with
  | nil => simp [joinSpace, applySubs_nil]
  | cons t rest ih =>
    cases rest with
    | nil => simp [joinSpace]
    | cons t2 ts =>
      show applySubs subs (t ++ ' ' :: joinSpace (t2 :: ts)) = _
      rw [applySubs_append_space subs h, ih]
      simp [joinSpace]

theorem aicSubs_wf : ∀ pr ∈ aicSubs, pr.1 ≠ [] ∧ ' ' ∉ pr.1 := by decide

theorem aicSubs_token_image :
    ∀ t ∈ cmuCodes, remapCmuToAic t = aicOf t := by decide

/-- Lowercasing never yields an ASCII uppercase letter. -/
theorem not_isUpperC_toLowerC (c : Char) : ¬ isUpperC (toLowerC c) := by
  unfold toLowerC
  by_cases h : 65 ≤ c.toNat ∧ c.toNat ≤ 90
  · rw [if_pos h]
    obtain ⟨h1, h2⟩ := h
    generalize hn : c.toNat = n at h1 h2
    interval_cases n <;> decide
  · rw [if_neg h]
    intro hu
    exact h hu

theorem not_isUpperC_of_mem_lowerStr {c : Char} {s : Str}
    (h : c ∈ lowerStr s) : ¬ isUpperC c := by
  obtain ⟨c0, _, rfl⟩ := List.mem_map.mp h
  exact not_isUpperC_toLowerC c0

/-- Splitting a colon-free string yields the string as its only part. -/
theorem splitColon_of_not_mem {s : Str} (h : ':' ∉ s) : splitColon s = [s] := by
  induction s with
  | nil => rfl
  | cons c cs ih =>
    have hc : c ≠ ':' := fun hcc => h (hcc ▸ List.mem_cons_self c cs)
    have hcs : ':' ∉ cs := fun hmem => h (List.mem_cons_of_mem c hmem)
    simp only [splitColon, if_neg hc, ih hcs]

theorem digitChar_isDigitC {d : Nat} (h : d < 10) :
    isDigitC (digitChar d) = true := by
  interval_cases d <;> decide

theorem digitChar_val {d : Nat} (h : d < 10) : (digitChar d).toNat - 48 = d := by
  interval_cases d <;> decide

theorem natDigitsCore_all_digits :
    ∀ fuel n, ∀ c ∈ natDigitsCore fuel n, isDigitC c = true := by
  intro fuel
  induction fuel with
  | zero => intro n c hc; simp [natDigitsCore] at hc
  | succ f ih =>
    intro n c hc
    by_cases h : n < 10
    · simp only [natDigitsCore, if_pos h, List.mem_singleton] at hc
      subst hc; exact digitChar_isDigitC h
    · simp only [natDigitsCore, if_neg h, List.mem_append,
        List.mem_singleton] at hc
      rcases hc with hc | hc
      · exact ih (n / 10) c hc
      · subst hc; exact digitChar_isDigitC (Nat.mod_lt n (by omega))

theorem natDigits_all_digits {n : Nat} : ∀ c ∈ natDigits n, isDigitC c = true :=
  natDigitsCore_all_digits (n + 1) n

theorem natDigitsCore_ne_nil :
    ∀ fuel n, n ≤ fuel → natDigitsCore (fuel + 1) n ≠ [] := by
  intro fuel n _
  by_cases h : n < 10
  · simp [natDigitsCore, if_pos h]
  · simp [natDigitsCore, if_neg h]

theorem natDigits_ne_nil (n : Nat) : natDigits n ≠ [] :=
  natDigitsCore_ne_nil n n le_rfl

theorem natDigitsCore_succ (fuel n : Nat) :
    natDigitsCore (fuel + 1) n =
      if n < 10 then [digitChar n]
      else natDigitsCore fuel (n / 10) ++ [digitChar (n % 10)] := rfl

theorem natDigitsCore_val :
    ∀ fuel n, n ≤ fuel →
      (natDigitsCore (fuel + 1) n).foldl (fun a c => a * 10 + (c.toNat - 48)) 0
        = n := by
  intro fuel
  induction fuel with
  | zero =>
    intro n hn
    have h : n < 10 := by omega
    simp [natDigitsCore_succ, if_pos h, digitChar_val h]
  | succ f ih =>
    intro n hn
    by_cases h : n < 10
    · simp [natDigitsCore_succ, if_pos h, digitChar_val h]
    · have hdiv : n / 10 ≤ f := by
        have h1 : n / 10 < n := Nat.div_lt_self (by omega) (by omega)
        omega
      have hm : n % 10 < 10 := Nat.mod_lt n (by omega)
      rw [natDigitsCore_succ, if_neg h, List.foldl_append, ih (n / 10) hdiv]
      simp only [List.foldl_cons, List.foldl_nil]
      rw [digitChar_val hm]
      omega

theorem parseDigits_natDigits (n : Nat) : parseDigits (natDigits n) = some n := by
  unfold parseDigits
  rw [if_pos]
  · rw [show natDigits n = natDigitsCore (n + 1) n from rfl,
      natDigitsCore_val n n le_rfl]
  · exact ⟨natDigits_ne_nil n, List.all_eq_true.mpr natDigits_all_digits⟩

theorem digit_not_wsC {c : Char} (h : isDigitC c = true) : isWsC c = false := by
  simp only [isDigitC, Bool.and_eq_true, decide_eq_true_eq] at h
  have h1 : 48 ≤ c.toNat := h.1
  have h2 : c.toNat ≤ 57 := h.2
  simp only [isWsC, Bool.or_eq_false_iff, beq_eq_false_iff_ne]
  refine ⟨⟨⟨⟨⟨?_, ?_⟩, ?_⟩, ?_⟩, ?_⟩, ?_⟩ <;>
    (intro hc; subst hc; simp at h1 h2)

/-- Evaluating Python `int` on the decimal rendering of a natural number
recovers that number. -/
theorem pyInt_natDigits (n : Nat) : pyInt (natDigits n) = some (n : Int) := by
  have hall := @natDigits_all_digits n
  have hne := natDigits_ne_nil n
  have hdrop1 : (natDigits n).dropWhile isWsC = natDigits n := by
    cases hd : natDigits n with
    | nil => rfl
    | cons c cs =>
      have hc : isDigitC c = true := by
        apply hall; rw [hd]; exact List.mem_cons_self c cs
      simp [List.dropWhile_cons, digit_not_wsC hc]
  have hdrop2 : (natDigits n).reverse.dropWhile isWsC = (natDigits n).reverse := by
    cases hd : (natDigits n).reverse with
    | nil => rfl
    | cons c cs =>
      have hc : isDigitC c = true := by
        apply hall
        have : c ∈ (natDigits n).reverse := by rw [hd]; exact List.mem_cons_self c cs
        simpa using this
      simp [List.dropWhile_cons, digit_not_wsC hc]
  unfold pyInt
  simp only [hdrop1, hdrop2, List.reverse_reverse]
  cases hd : natDigits n with
  | nil => exact absurd hd hne
  | cons c cs =>
    have hc : isDigitC c = true := by
      apply hall; rw [hd]; exact List.mem_cons_self c cs
    have hcm : c ≠ '-' := by
      intro h; rw [h] at hc; simp [isDigitC] at hc
    have hcp : c ≠ '+' := by
      intro h; rw [h] at hc; simp [isDigitC] at hc
    simp only [if_neg hcm, if_neg hcp]
    rw [← hd, parseDigits_natDigits]
    rfl

theorem dotStar_append_newline {a : Str} (b : Str) (ha : '\n' ∉ a) :
    dotStar (a ++ '\n' :: b) = a := by
  induction a with
  | nil => simp [dotStar, List.takeWhile]
  | cons c cs ih =>
    have hc : c ≠ '\n' := fun h => ha (h ▸ List.mem_cons_self c cs)
    have hcs : '\n' ∉ cs := fun h => ha (List.mem_cons_of_mem c h)
    simp only [List.cons_append, dotStar, List.takeWhile_cons]
    rw [if_pos (by simpa using hc)]
    have := ih hcs
    simp only [dotStar] at this
    rw [this]

theorem lastSplitAt_eq_none {ch : Char} {s : Str} (h : ch ∉ s) :
    lastSplitAt ch s = none := by
  induction s with
  | nil => rfl
  | cons c cs ih =>
    have hc : c ≠ ch := fun hcc => h (hcc ▸ List.mem_cons_self c cs)
    have hcs : ch ∉ cs := fun hm => h (List.mem_cons_of_mem c hm)
    simp [lastSplitAt, ih hcs, hc]

theorem lastSplitAt_append {ch : Char} (w : Str) {ds : Str} (hds : ch ∉ ds) :
    lastSplitAt ch (w ++ ch :: ds) = some (w, ds) := by
  induction w with
  | nil => simp [lastSplitAt, lastSplitAt_eq_none hds]
  | cons c cs ih =>
    simp only [List.cons_append, lastSplitAt, List.append_eq, ih]

theorem isDigitC_ne_newline {c : Char} (h : isDigitC c = true) : c ≠ '\n' := by
  intro hc; subst hc; simp [isDigitC] at h

theorem isDigitC_ne_tab {c : Char} (h : isDigitC c = true) : c ≠ '\t' := by
  intro hc; subst hc; simp [isDigitC] at h

/-- The OOV-file regex recovers the word and the frequency string from a
line written by `temp_cmu_lexicon`, provided the word contains no
newline. -/
theorem oovLineParse_encode (w : Str) (f : Nat) (hn : '\n' ∉ w) :
    oovLineParse (encodeOovLine w f) = some (w, natDigits f) := by
  have hds : '\n' ∉ natDigits f := fun hm =>
    isDigitC_ne_newline (natDigits_all_digits _ hm) rfl
  have hdt : '\t' ∉ natDigits f := fun hm =>
    isDigitC_ne_tab (natDigits_all_digits _ hm) rfl
  have hshape : encodeOovLine w f = (w ++ '\t' :: natDigits f) ++ '\n' :: [] := by
    simp [encodeOovLine]
  have hpre : '\n' ∉ w ++ '\t' :: natDigits f := by
    intro hm
    rcases List.mem_append.mp hm with hm | hm
    · exact hn hm
    · rcases List.mem_cons.mp hm with hm | hm
      · exact absurd hm.symm (by decide)
      · exact hds hm
  rw [oovLineParse, hshape, dotStar_append_newline [] hpre,
    lastSplitAt_append w hdt]

theorem oovStep_encode (w : Str) (f : Nat) :
    oovStep (w, natDigits f) =
      some (if 1 < f then some (lowerStr w, splitColon (lowerStr w))
            else none) := by
  simp only [oovStep, pyInt_natDigits, Option.map_some']
  congr 1
  by_cases h : 1 < f
  · rw [if_pos (show (1 : ℤ) < (f : ℤ) by exact_mod_cast h), if_pos h]
  · rw [if_neg (show ¬ (1 : ℤ) < (f : ℤ) by exact_mod_cast h), if_neg h]

theorem mapM_oovStep_encode :
    ∀ (entries : List (Str × Nat)), (∀ e ∈ entries, '\n' ∉ e.1) →
      ((entries.map (fun e => encodeOovLine e.1 e.2)).filterMap
          oovLineParse).mapM oovStep =
        some (entries.map (fun e =>
          if 1 < e.2 then some (lowerStr e.1, splitColon (lowerStr e.1))
          else none)) := by
  intro entries
  induction entries with
  | nil => intro _; rfl
  | cons e es ih =>
    intro h
    have he := h e (List.mem_cons_self e es)
    have hes : ∀ q ∈ es, '\n' ∉ q.1 :=
      fun q hq => h q (List.mem_cons_of_mem e hq)
    simp only [List.map_cons, List.filterMap_cons, oovLineParse_encode e.1 e.2 he,
      List.mapM_cons, oovStep_encode, ih hes, Option.pure_def, Option.bind_some,
      Option.bind_eq_bind, Option.some_bind]

theorem filterMap_id_map_if {α β : Type} (P : α → Prop) [DecidablePred P]
    (g : α → β) :
    ∀ l : List α,
      (l.map (fun e => if P e then some (g e) else none)).filterMap id =
        (l.filter (fun e => decide (P e))).map g := by
  intro l
  induction l with
  | nil => rfl
  | cons e es ih =>
    by_cases h : P e
    · simp [List.filter_cons, h, ih]
    · simp [List.filter_cons, h, ih]

/-- Claim C6, general form: feeding `temp_cmu_lexicon`-written OOV lines to
the OOV loop of `make_lexicon_aux` keeps exactly the candidates with
frequency strictly greater than 1, with a pronunciation obtained by
splitting the lowercased token on the colon delimiter. -/
theorem c6_oov_frequency_filter (entries : List (Str × Nat))
    (h : ∀ e ∈ entries, '\n' ∉ e.1) :
    oovEntries (entries.map (fun e => encodeOovLine e.1 e.2)) =
      some ((entries.filter (fun e => 1 < e.2)).map
        (fun e => (lowerStr e.1, splitColon (lowerStr e.1)))) := by
  rw [oovEntries, mapM_oovStep_encode entries h]
  simp only [Option.map_some']
  congr 1
  have := filterMap_id_map_if (fun e : Str × Nat => 1 < e.2)
    (fun e => (lowerStr e.1, splitColon (lowerStr e.1))) entries
  simpa using this

/-- Witness for C6 at the spec's own example: of the OOV candidates
`zz` (frequency 1) and `qq` (frequency 3), only `qq` reaches the final
lexicon. -/
theorem c6_witness :
    oovEntries
        [ encodeOovLine ( "zz".toList) 1, encodeOovLine ( "qq".toList) 3 ] =
      some [ ( "qq".toList, [ "qq".toList ]) ] := by
  have h := c6_oov_frequency_filter
    [ ( "zz".toList, 1), ( "qq".toList, 3) ] (by decide)
  simpa using h

/-- Claim C5: the CMU-to-AIC remapping substitutes every two-letter code
before any one-letter code (the first 23 table entries are exactly the
two-letter codes, the remaining 16 the one-letter codes), and therefore
maps any space-separated sequence of CMU codes to the corresponding
sequence of AIC symbols — no code is corrupted by a substitution matching
a prefix of it. -/
theorem c5_longest_match_first :
    (((aicSubs.take 23).all (fun pr => pr.1.length == 2)) = true ∧
     ((aicSubs.drop 23).all (fun pr => pr.1.length == 1)) = true) ∧
    ∀ tokens : List Str, (∀ tk ∈ tokens, tk ∈ cmuCodes) →
      remapCmuToAic (joinSpace tokens) = joinSpace (tokens.map aicOf) := by
  refine ⟨by decide, ?_⟩
  intro tokens h
  have hmap : tokens.map (applySubs aicSubs) = tokens.map aicOf :=
    List.map_congr_left (fun tk htk => aicSubs_token_image tk (h tk htk))
  calc remapCmuToAic (joinSpace tokens)
      = joinSpace (tokens.map (applySubs aicSubs)) :=
        applySubs_joinSpace aicSubs aicSubs_wf tokens
    _ = joinSpace (tokens.map aicOf) := by rw [hmap]

/-- Witness for C5: the sequence `AA AY` remaps to `a xy`, the image of
the two-letter codes, untouched by any one-letter substitution. -/
theorem c5_witness : remapCmuToAic ( "AA AY".toList) = "a xy".toList := by
  have h := c5_longest_match_first.2 [ "AA".toList, "AY".toList ] (by decide)
  have h1 : joinSpace [ "AA".toList, "AY".toList ] = "AA AY".toList := by decide
  have h2 : joinSpace ([ "AA".toList, "AY".toList ].map aicOf) =
      "a xy".toList := by decide
  rw [h1, h2] at h
  exact h

/-- Claim C9: a retained OOV token without the colon delimiter is its own
single-phone pseudo-pronunciation, and the written lexicon line is the
token followed by the token. -/
theorem c9_delimiter_free_oov (w : Str) (f : Nat) (h1 : 1 < f)
    (h2 : ':' ∉ lowerStr w) (hn : '\n' ∉ w) :
    oovEntries [ encodeOovLine w f ] =
      some [ (lowerStr w, [ lowerStr w ]) ] ∧
    renderLexLine (lowerStr w, joinSpace [ lowerStr w ]) =
      lowerStr w ++ ' ' :: lowerStr w := by
  constructor
  · have h := mapM_oovStep_encode [ (w, f) ] (by
      intro e he
      rcases List.mem_singleton.mp he with rfl
      exact hn)
    simp only [List.map_cons, List.map_nil] at h
    rw [oovEntries]
    rw [h]
    simp [h1, splitColon_of_not_mem h2]
  · rfl

/-- Witness for C9 at the token `qq` with frequency 3: the entry is
`qq` pronounced `qq`. -/
theorem c9_witness :
    oovEntries [ encodeOovLine ( "qq".toList) 3 ] =
      some [ ( "qq".toList, [ "qq".toList ]) ] :=
  (c9_delimiter_free_oov ( "qq".toList) 3 (by decide) (by decide)
    (by decide)).1

/-- Claim C7: each lexicon-preparation stage skips an input line its regex
does not match, leaving the stage output exactly as if the line were
absent — for the CMU dictionary loop and the transcription loop of
`temp_cmu_lexicon`, and the temporary-lexicon loop and the OOV loop of
`make_lexicon_aux`. -/
theorem c7_lenient_parsing (preC postC preT postT preL postL preO postO :
      List Str) (bad : Str) :
    (cmuDictParse bad = none →
      tempCmuLexiconDict (preC ++ bad :: postC) =
        tempCmuLexiconDict (preC ++ postC)) ∧
    (transParse bad = none →
      tempCmuLexiconFreqs (preT ++ bad :: postT) =
        tempCmuLexiconFreqs (preT ++ postT)) ∧
    (lexLineParse bad = none →
      lexCmuEntries (preL ++ bad :: postL) =
        lexCmuEntries (preL ++ postL)) ∧
    (oovLineParse bad = none →
      oovEntries (preO ++ bad :: postO) = oovEntries (preO ++ postO)) := by
  refine ⟨fun h => ?_, fun h => ?_, fun h => ?_, fun h => ?_⟩
  · unfold tempCmuLexiconDict
    rw [List.filterMap_append, List.filterMap_append, List.filterMap_cons, h]
  · unfold tempCmuLexiconFreqs
    rw [List.filterMap_append, List.filterMap_append, List.filterMap_cons, h]
  · unfold lexCmuEntries
    rw [List.filterMap_append, List.filterMap_append, List.filterMap_cons]
    simp [h]
  · unfold oovEntries
    rw [List.filterMap_append, List.filterMap_append, List.filterMap_cons, h]

/-- Witness for C7: the line made of a single `#` matches none of the four
stage regexes, and inserting it changes no stage output. -/
theorem c7_witness :
    tempCmuLexiconDict [ "#".toList ] = tempCmuLexiconDict [] ∧
    tempCmuLexiconFreqs [ "#".toList ] = tempCmuLexiconFreqs [] ∧
    lexCmuEntries [ "#".toList ] = lexCmuEntries [] ∧
    oovEntries [ "#".toList ] = oovEntries [] := by
  have h := c7_lenient_parsing [] [] [] [] [] [] [] [] ( "#".toList)
  exact ⟨h.1 (by decide), h.2.1 (by decide), h.2.2.1 (by decide),
    h.2.2.2 (by decide)⟩

theorem oovEntries_words {lines : List Str} {es : List (Str × List Str)}
    (h : oovEntries lines = some es) :
    ∀ q ∈ es, ∃ w, q.1 = lowerStr w := by
  unfold oovEntries at h
  rcases Option.map_eq_some'.mp h with ⟨vs, hvs, rfl⟩
  clear h
  induction lines generalizing vs with
  | nil =>
    simp only [List.filterMap_nil, List.mapM_nil, Option.pure_def,
      Option.some_inj] at hvs
    subst hvs; simp
  | cons l ls ih =>
    rw [List.filterMap_cons] at hvs
    cases hl : oovLineParse l with
    | none =>
      rw [hl] at hvs
      exact ih vs hvs
    | some m =>
      rw [hl, List.mapM_cons] at hvs
      cases hs : oovStep m with
      | none => rw [hs] at hvs; simp at hvs
      | some v =>
        rw [hs] at hvs
        cases hrest : (ls.filterMap oovLineParse).mapM oovStep with
        | none => rw [hrest] at hvs; simp at hvs
        | some rest =>
          rw [hrest] at hvs
          simp only [Option.pure_def, Option.bind_some, Option.bind_eq_bind,
            Option.some_bind, Option.some_inj] at hvs
          subst hvs
          intro q hq
          rw [List.filterMap_cons] at hq
          cases v with
          | none => exact ih rest hrest q hq
          | some v0 =>
            simp only [id] at hq
            rcases List.mem_cons.mp hq with rfl | hq
            · unfold oovStep at hs
              rcases Option.map_eq_some'.mp hs with ⟨freq, _, hv⟩
              by_cases hf : 1 < freq
              · rw [if_pos hf] at hv
                have hq1 := Option.some_inj.mp hv
                exact ⟨m.1, by rw [← hq1]⟩
              · rw [if_neg hf] at hv; exact absurd hv (by simp)
            · exact ih rest hrest q hq

/-- Claim C10: every word written to the final lexicon — both the
CMU-resolved entries and the retained OOV entries — is lowercased, hence
contains no ASCII uppercase letter. -/
theorem c10_lexicon_words_lowercase (tempLexLines oovLines : List Str)
    (out : List (Str × Str))
    (h : makeLexiconAux tempLexLines oovLines = some out) :
    ∀ e ∈ out, ∀ c ∈ e.1, ¬ isUpperC c := by
  unfold makeLexiconAux at h
  rcases Option.map_eq_some'.mp h with ⟨es, hes, rfl⟩
  intro e he c hc
  rcases List.mem_append.mp he with he | he
  · unfold lexCmuEntries at he
    rcases List.mem_filterMap.mp he with ⟨line, _, hline⟩
    rcases Option.map_eq_some'.mp hline with ⟨m, _, hm⟩
    have : e.1 = lowerStr m.1 := by rw [← hm]
    rw [this] at hc
    exact not_isUpperC_of_mem_lowerStr hc
  · rcases List.mem_map.mp he with ⟨q, hq, rfl⟩
    rcases oovEntries_words hes q hq with ⟨w, hw⟩
    simp only [hw] at hc
    exact not_isUpperC_of_mem_lowerStr hc

/-- Witness for C10: on a one-line temporary lexicon and a one-line OOV
file, the first letter of the first written word is not uppercase. -/
theorem c10_witness : ¬ isUpperC 'w' :=
  c10_lexicon_words_lowercase [ "WORD W".toList ]
    [ encodeOovLine ( "QQ".toList) 3 ]
    [ ( "word".toList, "w".toList), ( "qq".toList, "qq".toList) ]
    (by decide)
    ( "word".toList, "w".toList) (by decide) 'w' (by decide)

/-- Claim C3: when the external FST-formatting tool fails, `_format_lm`
propagates the error, leaves `output_dir` (and every artifact) exactly as
before the call, and the temporary formatting directory no longer exists;
in particular the remove-then-move swap never happened. -/
theorem c3_format_lm_failure_atomic (t : Tools) (G_arpa : String) (s : PState)
    (e : String) (h : t.formatLmSri s.outLang G_arpa = Except.error e) :
    format_lm t G_arpa s = (Except.error e, { s with fmtTmp := none }) := by
  simp [format_lm, h]

/-- Witness for C3: concrete failing formatter, concrete state. -/
theorem c3_witness :
    format_lm badFmtTools sArpa
        { emptyState with gArpa := some sArpa, outLang := sLang } =
      (Except.error sBoom,
        { emptyState with gArpa := some sArpa, outLang := sLang }) :=
  c3_format_lm_failure_atomic badFmtTools sArpa
    { emptyState with gArpa := some sArpa, outLang := sLang } sBoom rfl

theorem check_parameters_eq (p : LMParams) :
    check_parameters p =
      if p.level ∈ levelChoices then
        if p.order < 1 then Except.error (ConfigError.badOrder p.order)
        else if p.silence_probability > 1 ∨ p.silence_probability < 0 then
          Except.error
            (ConfigError.badSilenceProbability p.silence_probability)
        else Except.ok (check_position_dependent p)
      else Except.error (ConfigError.badLevel p.level) := by
  unfold check_parameters check_level check_order check_silence_probability
  split_ifs <;> rfl

/-- Claim C4: the parameter checks run before any external stage; a
non-positive order, an out-of-range silence probability or an unknown
level each raise a configuration error, while position-dependent phones on
a word-level model only produce the warning; a failing check makes `run`
return the error with no external call recorded. -/
theorem c4_parameter_validation (p : LMParams) (t : Tools) (s : PState) :
    (p.order < 1 → ∃ e, check_parameters p = Except.error e) ∧
    (1 < p.silence_probability ∨ p.silence_probability < 0 →
      ∃ e, check_parameters p = Except.error e) ∧
    (p.level ∉ levelChoices →
      check_parameters p = Except.error (ConfigError.badLevel p.level)) ∧
    (p.level = "word" → p.position_dependent_phones = true →
      1 ≤ p.order → 0 ≤ p.silence_probability → p.silence_probability ≤ 1 →
      check_parameters p = Except.ok [ wpdWarning ]) ∧
    (∀ e, check_parameters p = Except.error e →
      run t p s = (Except.error (RunError.config e), s, [])) := by
  refine ⟨?_, ?_, ?_, ?_, ?_⟩
  · intro h
    rw [check_parameters_eq]
    by_cases hl : p.level ∈ levelChoices
    · exact ⟨_, by rw [if_pos hl, if_pos h]⟩
    · exact ⟨_, by rw [if_neg hl]⟩
  · intro h
    rw [check_parameters_eq]
    by_cases hl : p.level ∈ levelChoices
    · by_cases ho : p.order < 1
      · exact ⟨_, by rw [if_pos hl, if_pos ho]⟩
      · exact ⟨_, by rw [if_pos hl, if_neg ho, if_pos (by tauto)]⟩
    · exact ⟨_, by rw [if_neg hl]⟩
  · intro h
    rw [check_parameters_eq, if_neg h]
  · intro hl hpd ho h0 h1
    rw [check_parameters_eq, if_pos (by rw [hl]; simp [levelChoices]),
      if_neg (by omega), if_neg (by rw [not_or]; constructor <;> linarith)]
    rw [check_position_dependent, if_pos ⟨hl, hpd⟩]
  · intro e he
    rw [run, he]

/-- Witness for C4: order 0, probability 3/2 and level `sentence` each
fail; a word-level model with position-dependent phones passes with the
warning; `run` on the order-0 parameters performs no external call. -/
theorem c4_witness :
    (∃ e, check_parameters order0Params = Except.error e) ∧
    (∃ e, check_parameters sp15Params = Except.error e) ∧
    (check_parameters badLevelParams =
      Except.error (ConfigError.badLevel badLevelParams.level)) ∧
    (check_parameters wpdParams = Except.ok [ wpdWarning ]) ∧
    run okTools order0Params emptyState =
      (Except.error (RunError.config (ConfigError.badOrder 0)),
        emptyState, []) := by
  refine ⟨?_, ?_, ?_, ?_, ?_⟩
  · exact (c4_parameter_validation order0Params okTools emptyState).1
      (by decide)
  · exact (c4_parameter_validation sp15Params okTools emptyState).2.1
      (by norm_num [sp15Params, okParams])
  · exact (c4_parameter_validation badLevelParams okTools emptyState).2.2.1
      (by decide)
  · exact (c4_parameter_validation wpdParams okTools emptyState).2.2.2.1
      rfl rfl (by decide) (by norm_num [wpdParams, okParams])
      (by norm_num [wpdParams, okParams])
  · exact (c4_parameter_validation order0Params okTools emptyState).2.2.2.2
      (ConfigError.badOrder 0) (by rfl)

/-- Claim C8: `_prepare_lang` selects the word-position-dependent variant
script exactly when the model level is `phone` and position-dependent
phones are enabled, and the standard `utils/prepare_lang.sh` in every
other combination. -/
theorem c8_prepare_lang_script (recipeDir shareDir localPath outputDir :
      String) (p : LMParams) :
    (p.level = "phone" ∧ p.position_dependent_phones = true →
      (prepareLangCmd recipeDir shareDir localPath outputDir p).script =
        shareDir ++ "/prepare_lang_wpdpl.sh") ∧
    (¬ (p.level = "phone" ∧ p.position_dependent_phones = true) →
      (prepareLangCmd recipeDir shareDir localPath outputDir p).script =
        recipeDir ++ "/utils/prepare_lang.sh") := by
  constructor
  · intro h
    simp only [prepareLangCmd, prepareLangScript]
    rw [if_pos (by exact_mod_cast h)]
  · intro h
    simp only [prepareLangCmd, prepareLangScript]
    rw [if_neg (by exact_mod_cast h)]

/-- Witness for C8: both branches at concrete directories and parameters. -/
theorem c8_witness :
    (prepareLangCmd sRecipeDir sShareDir sLocalDir sOutDir phoneWpdParams).script =
      sShareDir ++ "/prepare_lang_wpdpl.sh" ∧
    (prepareLangCmd sRecipeDir sShareDir sLocalDir sOutDir okParams).script =
      sRecipeDir ++ "/utils/prepare_lang.sh" :=
  ⟨(c8_prepare_lang_script sRecipeDir sShareDir sLocalDir sOutDir phoneWpdParams).1
      (by exact ⟨rfl, rfl⟩),
   (c8_prepare_lang_script sRecipeDir sShareDir sLocalDir sOutDir okParams).2
      (by simp [okParams])⟩

/-- Claim C1: branch selection in `run` is by artifact presence — with
`G.txt` present the n-gram builder is never invoked and the file is
compiled to `G.fst`; with both `G.txt` and `G.arpa.gz` absent the n-gram
model is computed, producing `G.arpa.gz`; and whenever `G.txt` is absent
the ARPA model is formatted into an FST. -/
theorem c1_branch_selection (t : Tools) (p : LMParams) (s : PState) :
    (s.gTxt.isSome = true → Call.computeLm ∉ (run t p s).2.2) ∧
    (s.gTxt.isSome = true → (run t p s).1 = Except.ok () →
      Call.compileFst ∈ (run t p s).2.2 ∧
      ∃ txt fst, s.gTxt = some txt ∧ t.compileFst txt = Except.ok fst ∧
        (run t p s).2.1.localFst = some fst) ∧
    (s.gTxt = none → s.gArpa = none → (run t p s).1 = Except.ok () →
      Call.computeLm ∈ (run t p s).2.2 ∧
      ((run t p s).2.1.gArpa).isSome = true) ∧
    (s.gTxt = none → (run t p s).1 = Except.ok () →
      Call.formatLm ∈ (run t p s).2.2) := by
  obtain ⟨gt, ga, lf, ol, ofs, ft⟩ := s
  refine ⟨?_, ?_, ?_, ?_⟩
  · intro hgt
    simp only [Option.isSome] at hgt
    cases gt with
    | none => simp at hgt
    | some txt =>
      cases hc : check_parameters p with
      | error e => simp [run, hc]
      | ok w =>
        cases hp : t.prepareLang p with
        | error e => simp [run, hc, hp]
        | ok lang =>
          cases hcf : t.compileFst txt with
          | error e => simp [run, hc, hp, hcf]
          | ok fst => simp [run, hc, hp, hcf]
  · intro hgt hok
    simp only [Option.isSome] at hgt
    cases gt with
    | none => simp at hgt
    | some txt =>
      cases hc : check_parameters p with
      | error e => simp [run, hc] at hok
      | ok w =>
        cases hp : t.prepareLang p with
        | error e => simp [run, hc, hp] at hok
        | ok lang =>
          cases hcf : t.compileFst txt with
          | error e => simp [run, hc, hp, hcf] at hok
          | ok fst =>
            simp only [run, hc, hp, hcf]
            exact ⟨by simp, txt, fst, rfl, hcf, rfl⟩
  · intro hgt hga hok
    subst hgt; subst hga
    cases hc : check_parameters p with
    | error e => simp [run, hc] at hok
    | ok w =>
      cases hp : t.prepareLang p with
      | error e => simp [run, hc, hp] at hok
      | ok lang =>
        cases hcl : t.computeLm p.order with
        | error e => simp [run, hc, hp, hcl] at hok
        | ok arpa =>
          cases hf : t.formatLmSri lang arpa with
          | error e => simp [run, format_lm, hc, hp, hcl, hf] at hok
          | ok res => simp [run, format_lm, hc, hp, hcl, hf]
  · intro hgt hok
    subst hgt
    cases hc : check_parameters p with
    | error e => simp [run, hc] at hok
    | ok w =>
      cases hp : t.prepareLang p with
      | error e => simp [run, hc, hp] at hok
      | ok lang =>
        cases ga with
        | some arpa =>
          cases hf : t.formatLmSri lang arpa with
          | error e => simp [run, format_lm, hc, hp, hf] at hok
          | ok res => simp [run, format_lm, hc, hp, hf]
        | none =>
          cases hcl : t.computeLm p.order with
          | error e => simp [run, hc, hp, hcl] at hok
          | ok arpa =>
            cases hf : t.formatLmSri lang arpa with
            | error e => simp [run, format_lm, hc, hp, hcl, hf] at hok
            | ok res => simp [run, format_lm, hc, hp, hcl, hf]

/-- Witness for C1: with a pre-seeded `G.txt` and all tools succeeding,
the n-gram builder is not among the recorded calls. -/
theorem c1_witness :
    Call.computeLm ∉
      (run okTools okParams { emptyState with gTxt := some sTxt }).2.2 :=
  (c1_branch_selection okTools okParams
    { emptyState with gTxt := some sTxt }).1 rfl

/-- Claim C2: a second `run` on the state produced by a successful first
`run` succeeds, reproduces the state exactly (in particular the `G.fst`
content is identical), and records no n-gram-builder call — the
`G.arpa.gz` produced by the first run is detected and that stage
skipped. -/
theorem c2_idempotent_staging (t : Tools) (p : LMParams) (s s1 : PState)
    (tr1 : List Call) (h : run t p s = (Except.ok (), s1, tr1)) :
    ∃ tr2, run t p s1 = (Except.ok (), s1, tr2) ∧ Call.computeLm ∉ tr2 := by
  obtain ⟨gt, ga, lf, ol, ofs, ft⟩ := s
  cases hc : check_parameters p with
  | error e => simp [run, hc] at h
  | ok w =>
    cases hp : t.prepareLang p with
    | error e => simp [run, hc, hp] at h
    | ok lang =>
      cases gt with
      | some txt =>
        cases hcf : t.compileFst txt with
        | error e => simp [run, hc, hp, hcf] at h
        | ok fst =>
          simp only [run, hc, hp, hcf, Prod.mk.injEq] at h
          obtain ⟨-, h2, h3⟩ := h
          subst h2; subst h3
          refine ⟨[Call.prepareLang, Call.compileFst], ?_, by decide⟩
          simp [run, hc, hp, hcf]
      | none =>
        cases ga with
        | some arpa =>
          cases hf : t.formatLmSri lang arpa with
          | error e => simp [run, format_lm, hc, hp, hf] at h
          | ok res =>
            simp only [run, format_lm, hc, hp, hf, Prod.mk.injEq] at h
            obtain ⟨-, h2, h3⟩ := h
            subst h2; subst h3
            refine ⟨[Call.prepareLang, Call.formatLm], ?_, by decide⟩
            simp [run, format_lm, hc, hp, hf]
        | none =>
          cases hcl : t.computeLm p.order with
          | error e => simp [run, hc, hp, hcl] at h
          | ok arpa =>
            cases hf : t.formatLmSri lang arpa with
            | error e => simp [run, format_lm, hc, hp, hcl, hf] at h
            | ok res =>
              simp only [run, format_lm, hc, hp, hcl, hf, Prod.mk.injEq] at h
              obtain ⟨-, h2, h3⟩ := h
              subst h2; subst h3
              refine ⟨[Call.prepareLang, Call.formatLm], ?_, by decide⟩
              simp [run, format_lm, hc, hp, hf]

/-- Witness for C2: the concrete first run from the empty state succeeds,
and the theorem yields the computeLm-free second run on its result. -/
theorem c2_witness :
    ∃ tr2, run okTools okParams afterFirstRun =
        (Except.ok (), afterFirstRun, tr2) ∧ Call.computeLm ∉ tr2 :=
  c2_idempotent_staging okTools okParams emptyState afterFirstRun
    [Call.prepareLang, Call.computeLm, Call.formatLm] (by
      have hc : check_parameters okParams = Except.ok [] := by
        rw [check_parameters_eq]
        rw [if_pos (by decide), if_neg (by decide),
          if_neg (by norm_num [okParams])]
        rfl
      simp [run, format_lm, hc, okTools, emptyState, afterFirstRun])

end Abkhazia
